import Mathlib

/-
Verification of the Event Feed Reconciler of `src/app/drawer/Events.tsx`
(Insync-ExpoApp).

The screen fetches a raw list of event records, filters out events whose
end time has passed, removes duplicate records by `event_id` (first
occurrence wins, via an insertion-ordered `Map`), and stores the result
for display.  Deletion removes every record with the deleted identifier
from the locally held list when the server reports success, and leaves
the list unchanged otherwise.

Modelling decisions (shallow embedding):
* A JavaScript `Date` constructed from a string either has a numeric time
  value or is an Invalid Date (time value NaN).  We model the external
  `new Date(string)` parser as an arbitrary function
  `parse : String → Option Int`: `some t` is a valid date with time value
  `t`, `none` is an Invalid Date.  The comparison
  `new Date(event.end_time) >= now` coerces both sides to their numeric
  time values and every comparison with NaN is false, so it is modelled
  by `endTimeGeq`: `false` when the parse fails, `now ≤ t` otherwise.
* The JavaScript `Map<number, EventData>` iterates its values in key
  insertion order; `removeDuplicateEvents` only inserts a key it has not
  seen.  The map is modelled as an insertion-ordered association list,
  `Map.has` as a key scan and `Map.set` (on a fresh key) as an append;
  `Array.from(map.values())` is `List.map Prod.snd`.
* `React.useState` state updates are modelled as functions from the
  previous state to the next state; the branches of `fetchEventData` and
  `deleteEvent` that do not call `setEvents` leave the state unchanged.
  The `loading` flag is display-only and not modelled.
-/

namespace Insync

/-- The `EventData` interface of `Events.tsx` (lines 20-30).  `number`
fields are modelled as `Int`, nullable fields as `Option`.  The
`end_time` string is fed to `new Date(...)` by the temporal filter. -/
structure EventData where
  event_id : Int
  event_name : String
  start_time : String
  end_time : String
  location : Option String
  description : String
  privacy : String
  story : Option String
  repeat_event : String
deriving DecidableEq

/-- The predicate of the temporal filter (lines 81-84):
`new Date(event.end_time) >= now`.  `parse` models the `Date`
constructor; an Invalid Date (parse failure, NaN time value) makes the
comparison false. -/
def endTimeGeq (parse : String → Option Int) (now : Int) (event : EventData) : Bool :=
  match parse event.end_time with
  | some t => now ≤ t
  | none => false

/-- The body of `removeDuplicateEvents` (lines 104-113): a `forEach`
(modelled as `foldl`) over an insertion-ordered map from `event_id` to
the first record seen with that id, then `Array.from(map.values())`. -/
def removeDuplicateEvents (events : List EventData) : List EventData :=
  (events.foldl
    (fun uniqueEventMap event =>
      if uniqueEventMap.any (fun p => p.1 == event.event_id) then uniqueEventMap
      else uniqueEventMap ++ [(event.event_id, event)])
    ([] : List (Int × EventData))).map Prod.snd

/-- Structurally recursive form of the dedup loop: `seen` is the key set
of the map built so far, the output is the list of values still to be
inserted, in insertion order.  `removeDuplicateEvents_eq` proves it
equal to `removeDuplicateEvents`. -/
def dedupeFrom (seen : List Int) : List EventData → List EventData
  | [] => []
  | e :: rest =>
    if e.event_id ∈ seen then dedupeFrom seen rest
    else e :: dedupeFrom (e.event_id :: seen) rest

/-- The reconciliation performed by `fetchEventData` on an array payload
(lines 76-89): temporal filter, then deduplication by identifier. -/
def reconcile (parse : String → Option Int) (now : Int) (data : List EventData) :
    List EventData :=
  removeDuplicateEvents (data.filter (fun event => endTimeGeq parse now event))

/-- The possible outcomes of one fetch cycle of `fetchEventData`
(lines 62-99), abstracting transport and JSON decoding: a non-ok HTTP
status, a JSON payload that is an array of records, a JSON payload that
is not an array, or a thrown error. -/
inductive FetchResponse where
  | notOk (status : Nat)
  | okArray (data : List EventData)
  | okNonArray
  | fetchFailed
deriving DecidableEq

/-- The effect of one `fetchEventData` cycle on the `events` state:
only the array branch calls `setEvents` (line 89), with the reconciled
list; every other branch returns or logs without touching the state. -/
def fetchEventData (parse : String → Option Int) (now : Int)
    (response : FetchResponse) (prevEvents : List EventData) : List EventData :=
  match response with
  | .okArray data => reconcile parse now data
  | .notOk _ => prevEvents
  | .okNonArray => prevEvents
  | .fetchFailed => prevEvents

/-- The possible outcomes of the DELETE request in `deleteEvent`
(lines 135-166): success, a server failure with or without a structured
message, or a thrown network error. -/
inductive DeleteResponse where
  | ok
  | errorWithMessage (msg : String)
  | errorNoMessage
  | networkFailed
deriving DecidableEq

/-- The effect of `deleteEvent` on the `events` state: on success the
state is filtered to the records whose `event_id` differs from the
deleted one (lines 151-153); every failure branch only alerts and leaves
the state unchanged. -/
def deleteEvent (eventId : Int) (response : DeleteResponse)
    (prevEvents : List EventData) : List EventData :=
  match response with
  | .ok => prevEvents.filter (fun event => !(event.event_id == eventId))
  | .errorWithMessage _ => prevEvents
  | .errorNoMessage => prevEvents
  | .networkFailed => prevEvents

/-! Bridge between the map-based `removeDuplicateEvents` and the
recursive `dedupeFrom`. -/

/-- The dedup loop only consults the membership of `seen`. -/
theorem dedupeFrom_congr {s₁ s₂ : List Int}
    (h : ∀ k, k ∈ s₁ ↔ k ∈ s₂) :
    ∀ l : List EventData, dedupeFrom s₁ l = dedupeFrom s₂ l := by
  intro l
  induction l generalizing s₁ s₂ with
  | nil => rfl
  | cons e rest ih =>
    by_cases hm : e.event_id ∈ s₁
    · rw [dedupeFrom, dedupeFrom, if_pos hm, if_pos ((h _).1 hm)]
      exact ih h
    · rw [dedupeFrom, dedupeFrom, if_neg hm, if_neg (fun hc => hm ((h _).2 hc))]
      refine congrArg (e :: ·) (ih ?_)
      intro k
      simp only [List.mem_cons, h k]

/-- Unfolding of one `forEach` pass: folding over `l` starting from the
map `m` appends to the values of `m` exactly the dedup of `l` with the
keys of `m` already seen. -/
theorem foldl_dedupe_eq (l : List EventData) :
    ∀ m : List (Int × EventData),
      (l.foldl
        (fun uniqueEventMap event =>
          if uniqueEventMap.any (fun p => p.1 == event.event_id) then uniqueEventMap
          else uniqueEventMap ++ [(event.event_id, event)])
        m).map Prod.snd
      = m.map Prod.snd ++ dedupeFrom (m.map Prod.fst) l := by
  induction l with
  | nil => intro m; simp [dedupeFrom]
  | cons e rest ih =>
    intro m
    rw [List.foldl_cons]
    by_cases hm : e.event_id ∈ m.map Prod.fst
    · have hany : m.any (fun p => p.1 == e.event_id) = true := by
        rcases List.mem_map.1 hm with ⟨p, hp, hfst⟩
        exact List.any_eq_true.2 ⟨p, hp, by simp [hfst]⟩
      rw [if_pos hany, ih m, dedupeFrom, if_pos hm]
    · have hany : m.any (fun p => p.1 == e.event_id) = false := by
        rw [List.any_eq_false]
        intro p hp
        simp only [beq_iff_eq]
        intro hfst
        exact hm (List.mem_map.2 ⟨p, hp, hfst⟩)
      rw [if_neg (by simp [hany]), ih (m ++ [(e.event_id, e)]), dedupeFrom, if_neg hm]
      have hseen : ∀ k : Int,
          k ∈ (m ++ [(e.event_id, e)]).map Prod.fst ↔ k ∈ e.event_id :: m.map Prod.fst := by
        intro k
        simp only [List.map_append, List.mem_append, List.mem_cons, List.map_cons,
          List.map_nil, List.mem_singleton]
        tauto
      rw [dedupeFrom_congr hseen rest]
      simp

/-- `removeDuplicateEvents` computes the recursive dedup with no key
seen yet. -/
theorem removeDuplicateEvents_eq (events : List EventData) :
    removeDuplicateEvents events = dedupeFrom [] events := by
  have h := foldl_dedupe_eq events []
  simpa [removeDuplicateEvents] using h

/-! Core lemmas about the recursive dedup loop. -/

/-- The dedup output is a subsequence of its input. -/
theorem dedupeFrom_sublist (seen : List Int) (l : List EventData) :
    (dedupeFrom seen l).Sublist l := by
  induction l generalizing seen with
  | nil => exact List.Sublist.refl _
  | cons e rest ih =>
    rw [dedupeFrom]
    by_cases hm : e.event_id ∈ seen
    · rw [if_pos hm]
      exact (ih seen).trans (List.sublist_cons_self e rest)
    · rw [if_neg hm]
      exact (ih (e.event_id :: seen)).cons₂ e

/-- A record emitted by the dedup loop has an identifier that was not
yet seen when the loop started. -/
theorem mem_dedupeFrom_not_seen {seen : List Int} {l : List EventData}
    {e : EventData} (h : e ∈ dedupeFrom seen l) : e.event_id ∉ seen := by
  induction l generalizing seen with
  | nil => simp [dedupeFrom] at h
  | cons x rest ih =>
    rw [dedupeFrom] at h
    by_cases hm : x.event_id ∈ seen
    · rw [if_pos hm] at h
      exact ih h
    · rw [if_neg hm] at h
      rcases List.mem_cons.1 h with rfl | h'
      · exact hm
      · have := ih h'
        intro hc
        exact this (List.mem_cons_of_mem _ hc)

/-- No two records emitted by the dedup loop share an identifier. -/
theorem dedupeFrom_pairwise (seen : List Int) (l : List EventData) :
    (dedupeFrom seen l).Pairwise (fun a b => a.event_id ≠ b.event_id) := by
  induction l generalizing seen with
  | nil => exact List.Pairwise.nil
  | cons e rest ih =>
    rw [dedupeFrom]
    by_cases hm : e.event_id ∈ seen
    · rw [if_pos hm]
      exact ih seen
    · rw [if_neg hm]
      refine List.pairwise_cons.2 ⟨?_, ih (e.event_id :: seen)⟩
      intro b hb
      have := mem_dedupeFrom_not_seen hb
      intro hc
      exact this (by rw [← hc]; exact List.mem_cons_self _ _)

/-- Every record emitted by the dedup loop is the first record of its
input bearing its identifier. -/
theorem find?_of_mem_dedupeFrom {seen : List Int} {l : List EventData}
    {e : EventData} (h : e ∈ dedupeFrom seen l) :
    l.find? (fun x => x.event_id == e.event_id) = some e := by
  induction l generalizing seen with
  | nil => simp [dedupeFrom] at h
  | cons x rest ih =>
    rw [dedupeFrom] at h
    by_cases hm : x.event_id ∈ seen
    · rw [if_pos hm] at h
      have hne : x.event_id ≠ e.event_id := by
        intro hc
        exact mem_dedupeFrom_not_seen h (hc ▸ hm)
      rw [List.find?_cons_of_neg _ (by simpa using hne)]
      exact ih h
    · rw [if_neg hm] at h
      rcases List.mem_cons.1 h with rfl | h'
      · exact List.find?_cons_of_pos _ (by simp)
      · have hnotseen := mem_dedupeFrom_not_seen h'
        have hne : x.event_id ≠ e.event_id := by
          intro hc
          exact hnotseen (by rw [← hc]; exact List.mem_cons_self _ _)
        rw [List.find?_cons_of_neg _ (by simpa using hne)]
        exact ih h'

/-- Every identifier present in the input and not yet seen is
represented in the dedup output. -/
theorem dedupeFrom_retains {seen : List Int} {l : List EventData}
    {x : EventData} (hx : x ∈ l) (hns : x.event_id ∉ seen) :
    ∃ e ∈ dedupeFrom seen l, e.event_id = x.event_id := by
  induction l generalizing seen with
  | nil => simp at hx
  | cons y rest ih =>
    rw [dedupeFrom]
    by_cases hm : y.event_id ∈ seen
    · rw [if_pos hm]
      rcases List.mem_cons.1 hx with rfl | hx'
      · exact absurd hm hns
      · exact ih hx' hns
    · rw [if_neg hm]
      by_cases hid : x.event_id = y.event_id
      · exact ⟨y, List.mem_cons_self _ _, hid.symm⟩
      · rcases List.mem_cons.1 hx with rfl | hx'
        · exact absurd rfl hid
        · rcases ih hx' (by
            intro hc
            rcases List.mem_cons.1 hc with hc' | hc'
            · exact hid hc'
            · exact hns hc') with ⟨e, he, heq⟩
          exact ⟨e, List.mem_cons_of_mem _ he, heq⟩

/-- On a list whose identifiers are pairwise distinct and disjoint from
`seen`, the dedup loop is the identity. -/
theorem dedupeFrom_eq_self {seen : List Int} {l : List EventData}
    (hp : l.Pairwise (fun a b => a.event_id ≠ b.event_id))
    (hd : ∀ x ∈ l, x.event_id ∉ seen) :
    dedupeFrom seen l = l := by
  induction l generalizing seen with
  | nil => rfl
  | cons e rest ih =>
    rw [dedupeFrom, if_neg (hd e (List.mem_cons_self _ _))]
    rcases List.pairwise_cons.1 hp with ⟨hhead, htail⟩
    refine congrArg (e :: ·) (ih htail ?_)
    intro x hx hc
    rcases List.mem_cons.1 hc with hc' | hc'
    · exact hhead x hx hc'.symm
    · exact hd x (List.mem_cons_of_mem _ hx) hc'

/-- The dedup loop preserves the relative order of first occurrences:
two emitted records appear in the output in the order of their first
occurrences in the input. -/
theorem dedupeFrom_indexOf_lt {l : List EventData} :
    ∀ {seen : List Int} {a b : EventData},
      a ∈ dedupeFrom seen l → b ∈ dedupeFrom seen l →
      l.indexOf a < l.indexOf b →
      (dedupeFrom seen l).indexOf a < (dedupeFrom seen l).indexOf b := by
  induction l with
  | nil => intro seen a b ha _ _; simp [dedupeFrom] at ha
  | cons x rest ih =>
    intro seen a b ha hb hlt
    by_cases hm : x.event_id ∈ seen
    · rw [dedupeFrom, if_pos hm] at ha hb ⊢
      have hax : x ≠ a := by
        intro hc
        exact mem_dedupeFrom_not_seen ha (hc ▸ hm)
      have hbx : x ≠ b := by
        intro hc
        exact mem_dedupeFrom_not_seen hb (hc ▸ hm)
      rw [List.indexOf_cons_ne _ hax, List.indexOf_cons_ne _ hbx] at hlt
      exact ih ha hb (Nat.succ_lt_succ_iff.1 hlt)
    · rw [dedupeFrom, if_neg hm] at ha hb ⊢
      by_cases hax : a = x
      · have hbx : x ≠ b := by
          intro hc
          rw [List.indexOf_cons_eq rest hc] at hlt
          exact Nat.not_lt_zero _ hlt
        rw [hax, List.indexOf_cons_self, List.indexOf_cons_ne _ hbx]
        exact Nat.succ_pos _
      · have ha' : a ∈ dedupeFrom (x.event_id :: seen) rest :=
          (List.mem_cons.1 ha).resolve_left hax
        by_cases hbx : b = x
        · rw [List.indexOf_cons_eq rest hbx.symm] at hlt
          exact absurd hlt (Nat.not_lt_zero _)
        · have hb' : b ∈ dedupeFrom (x.event_id :: seen) rest :=
            (List.mem_cons.1 hb).resolve_left hbx
          rw [List.indexOf_cons_ne _ (Ne.symm hax), List.indexOf_cons_ne _ (Ne.symm hbx)]
            at hlt ⊢
          exact Nat.succ_lt_succ (ih ha' hb' (Nat.succ_lt_succ_iff.1 hlt))

/-- Filtering preserves the relative order of first occurrences of two
retained records. -/
theorem filter_indexOf_lt (p : EventData → Bool) {l : List EventData} :
    ∀ {a b : EventData}, a ∈ l.filter p → b ∈ l.filter p →
      l.indexOf a < l.indexOf b →
      (l.filter p).indexOf a < (l.filter p).indexOf b := by
  induction l with
  | nil => intro a b ha _ _; simp at ha
  | cons x rest ih =>
    intro a b ha hb hlt
    by_cases hpx : p x
    · rw [List.filter_cons_of_pos hpx] at ha hb ⊢
      by_cases hax : a = x
      · have hbx : x ≠ b := by
          intro hc
          rw [List.indexOf_cons_eq rest hc] at hlt
          exact Nat.not_lt_zero _ hlt
        rw [hax, List.indexOf_cons_self, List.indexOf_cons_ne _ hbx]
        exact Nat.succ_pos _
      · have ha' : a ∈ rest.filter p := (List.mem_cons.1 ha).resolve_left hax
        by_cases hbx : b = x
        · rw [List.indexOf_cons_eq rest hbx.symm] at hlt
          exact absurd hlt (Nat.not_lt_zero _)
        · have hb' : b ∈ rest.filter p := (List.mem_cons.1 hb).resolve_left hbx
          rw [List.indexOf_cons_ne _ (Ne.symm hax), List.indexOf_cons_ne _ (Ne.symm hbx)]
            at hlt ⊢
          exact Nat.succ_lt_succ (ih ha' hb' (Nat.succ_lt_succ_iff.1 hlt))
    · rw [List.filter_cons_of_neg hpx] at ha hb ⊢
      have hax : x ≠ a := by
        intro hc
        exact hpx (hc ▸ (List.mem_filter.1 ha).2)
      have hbx : x ≠ b := by
        intro hc
        exact hpx (hc ▸ (List.mem_filter.1 hb).2)
      rw [List.indexOf_cons_ne _ hax, List.indexOf_cons_ne _ hbx] at hlt
      exact ih ha hb (Nat.succ_lt_succ_iff.1 hlt)

/-! Reconcile-level helper lemmas. -/

/-- The reconciled list is a subsequence of the filtered list. -/
theorem reconcile_sublist_filter (parse : String → Option Int) (now : Int)
    (l : List EventData) :
    (reconcile parse now l).Sublist
      (l.filter (fun event => endTimeGeq parse now event)) := by
  rw [reconcile, removeDuplicateEvents_eq]
  exact dedupeFrom_sublist _ _

/-- Every reconciled record passed the temporal filter and came from the
input. -/
theorem mem_reconcile {parse : String → Option Int} {now : Int}
    {l : List EventData} {e : EventData} (h : e ∈ reconcile parse now l) :
    e ∈ l ∧ endTimeGeq parse now e = true := by
  have h' := (reconcile_sublist_filter parse now l).mem h
  exact ⟨(List.mem_filter.1 h').1, (List.mem_filter.1 h').2⟩

/-! Concrete records and a concrete `Date` model used to instantiate the
universally quantified theorems. -/

/-- Concrete model of the `Date` constructor for test data: two
parseable end-time strings and everything else an Invalid Date. -/
def parse0 : String → Option Int
  | "past" => some 0
  | "future" => some 100
  | _ => none

/-- Sample upcoming record with identifier 1. -/
def evA : EventData :=
  ⟨1, "Breakfast", "2024-01-01", "future", none, "d1", "Public", none, "No"⟩

/-- Sample upcoming record with identifier 2. -/
def evB : EventData :=
  ⟨2, "Lunch", "2024-01-02", "future", some ("Cafe"), "d2", "Private", some ("img"), "No"⟩

/-- Sample expired record with identifier 1. -/
def evPast1 : EventData :=
  ⟨1, "Old breakfast", "2023-01-01", "past", none, "d0", "Public", none, "No"⟩

/-- Sample upcoming record with identifier 1, distinct from `evPast1`. -/
def evFut1 : EventData :=
  ⟨1, "New breakfast", "2024-02-01", "future", none, "d4", "Public", none, "No"⟩

/-- Sample record whose end-time string is not parseable as a date. -/
def evBad : EventData :=
  ⟨3, "Broken", "2024-01-03", "garbage", none, "d3", "Public", none, "No"⟩

/-! Claim theorems. -/

/-- C1: every record in the output of the reconciliation has an end time
that is at or after `now`; records whose end time is before `now` are
excluded. -/
theorem reconcile_output_not_expired (parse : String → Option Int) (now : Int)
    (l : List EventData) :
    (∀ e ∈ reconcile parse now l, ∃ t, parse e.end_time = some t ∧ now ≤ t) ∧
    (∀ e : EventData, ∀ t : Int, parse e.end_time = some t → t < now →
      e ∉ reconcile parse now l) := by
  constructor
  · intro e he
    have hgeq := (mem_reconcile he).2
    rw [endTimeGeq] at hgeq
    rcases hp : parse e.end_time with _ | t
    · rw [hp] at hgeq
      exact absurd hgeq (by simp)
    · rw [hp] at hgeq
      exact ⟨t, rfl, by simpa using hgeq⟩
  · intro e t hp hlt he
    have hgeq := (mem_reconcile he).2
    rw [endTimeGeq, hp] at hgeq
    have : now ≤ t := by simpa using hgeq
    exact absurd hlt (not_lt.2 this)

/-- C1 witness: on the concrete input `[evA, evPast1]` at `now = 50`,
`evA` is in the output and its end time is at or after 50, and the
expired `evPast1` is excluded. -/
theorem reconcile_output_not_expired_witness :
    (∃ t, parse0 evA.end_time = some t ∧ (50 : Int) ≤ t) ∧
    evPast1 ∉ reconcile parse0 50 [evA, evPast1] := by
  constructor
  · exact (reconcile_output_not_expired parse0 50 [evA, evPast1]).1 evA
      (by rw [show reconcile parse0 50 [evA, evPast1] = [evA] from rfl]; simp)
  · exact (reconcile_output_not_expired parse0 50 [evA, evPast1]).2 evPast1 0
      (by rfl) (by norm_num)

/-- C10: the output of the reconciliation is a subsequence of the input:
every output record is, field for field, one of the input records, and
the output is never longer than the input. -/
theorem reconcile_sublist_input (parse : String → Option Int) (now : Int)
    (l : List EventData) :
    (reconcile parse now l).Sublist l ∧
    (∀ e ∈ reconcile parse now l, e ∈ l) ∧
    (reconcile parse now l).length ≤ l.length := by
  have hsub : (reconcile parse now l).Sublist l :=
    (reconcile_sublist_filter parse now l).trans (List.filter_sublist l)
  exact ⟨hsub, fun e he => hsub.mem he, hsub.length_le⟩

/-- C10 witness: on the concrete input `[evA, evPast1]` at `now = 50`,
the output record `evA` is one of the input records. -/
theorem reconcile_sublist_input_witness :
    evA ∈ ([evA, evPast1] : List EventData) := by
  refine (reconcile_sublist_input parse0 50 [evA, evPast1]).2.1 evA ?_
  rw [show reconcile parse0 50 [evA, evPast1] = [evA] from rfl]
  simp

/-- C4: the reconciliation is idempotent: reconciling an
already-reconciled list with the same `now` yields the same list. -/
theorem reconcile_idempotent (parse : String → Option Int) (now : Int)
    (l : List EventData) :
    reconcile parse now (reconcile parse now l) = reconcile parse now l := by
  have hall : ∀ e ∈ reconcile parse now l, endTimeGeq parse now e = true :=
    fun e he => (mem_reconcile he).2
  have hfilter :
      (reconcile parse now l).filter (fun event => endTimeGeq parse now event)
        = reconcile parse now l :=
    List.filter_eq_self.2 hall
  have hpair : (reconcile parse now l).Pairwise
      (fun a b => a.event_id ≠ b.event_id) := by
    rw [reconcile, removeDuplicateEvents_eq]
    exact dedupeFrom_pairwise _ _
  calc reconcile parse now (reconcile parse now l)
      = removeDuplicateEvents (reconcile parse now l) := by
        rw [reconcile, hfilter]
    _ = reconcile parse now l := by
        rw [removeDuplicateEvents_eq]
        exact dedupeFrom_eq_self hpair (by simp)

/-- C6: the reconciliation is total and never propagates a parse error:
a record whose end-time string is unparseable is silently excluded, and
a single-record input with an unparseable end time yields the empty
output. -/
theorem reconcile_excludes_unparseable (parse : String → Option Int) (now : Int) :
    (∀ r : EventData, parse r.end_time = none → reconcile parse now [r] = []) ∧
    (∀ l : List EventData, ∀ e : EventData, parse e.end_time = none →
      e ∉ reconcile parse now l) := by
  constructor
  · intro r hr
    rw [reconcile]
    rw [List.filter_cons_of_neg (by rw [endTimeGeq, hr]; simp), List.filter_nil]
    rfl
  · intro l e hp he
    have hgeq := (mem_reconcile he).2
    rw [endTimeGeq, hp] at hgeq
    exact absurd hgeq (by simp)

/-- C6 witness: the record `evBad` has an unparseable end time, and the
single-record input `[evBad]` reconciles to the empty list. -/
theorem reconcile_excludes_unparseable_witness :
    reconcile parse0 50 [evBad] = [] ∧ evBad ∉ reconcile parse0 50 [evBad, evA] := by
  constructor
  · exact (reconcile_excludes_unparseable parse0 50).1 evBad (by rfl)
  · exact (reconcile_excludes_unparseable parse0 50).2 [evBad, evA] evBad (by rfl)

/-- C2 counterexample: on the input `[evPast1, evFut1]` (two records
with identifier 1, the first expired) at `now = 50`, the record kept for
identifier 1 is `evFut1`, but the first occurrence of identifier 1 in
input order is `evPast1`, a different record.  So the kept record is not
the first occurrence of its identifier in input order. -/
theorem reconcile_first_occurrence_counterexample :
    evFut1 ∈ reconcile parse0 50 [evPast1, evFut1] ∧
    [evPast1, evFut1].find? (fun x => x.event_id == evFut1.event_id) = some evPast1 ∧
    evPast1 ≠ evFut1 := by
  refine ⟨?_, by rfl, by decide⟩
  rw [show reconcile parse0 50 [evPast1, evFut1] = [evFut1] from rfl]
  simp

/-- C2 amended: the output contains at most one record per identifier,
and the record kept for an identifier is the first occurrence of that
identifier, in input order, among the records that pass the temporal
filter. -/
theorem reconcile_unique_first_filtered (parse : String → Option Int) (now : Int)
    (l : List EventData) :
    (reconcile parse now l).Pairwise (fun a b => a.event_id ≠ b.event_id) ∧
    (∀ e ∈ reconcile parse now l,
      (l.filter (fun event => endTimeGeq parse now event)).find?
        (fun x => x.event_id == e.event_id) = some e) := by
  constructor
  · rw [reconcile, removeDuplicateEvents_eq]
    exact dedupeFrom_pairwise _ _
  · intro e he
    rw [reconcile, removeDuplicateEvents_eq] at he
    exact find?_of_mem_dedupeFrom he

/-- C2 amended witness: on `[evPast1, evFut1]` at `now = 50` the kept
record `evFut1` is the first occurrence of identifier 1 among the
records passing the temporal filter. -/
theorem reconcile_unique_first_filtered_witness :
    ([evPast1, evFut1].filter (fun event => endTimeGeq parse0 50 event)).find?
      (fun x => x.event_id == evFut1.event_id) = some evFut1 := by
  refine (reconcile_unique_first_filtered parse0 50 [evPast1, evFut1]).2 evFut1 ?_
  rw [show reconcile parse0 50 [evPast1, evFut1] = [evFut1] from rfl]
  simp

/-- C3: the reconciliation is the temporal filter followed by
deduplication by identifier, in that order; consequently an identifier
with any non-expired occurrence in the input is retained, even when its
first occurrence in the input is expired. -/
theorem reconcile_filter_then_dedupe (parse : String → Option Int) (now : Int)
    (l : List EventData) :
    reconcile parse now l
      = removeDuplicateEvents (l.filter (fun event => endTimeGeq parse now event)) ∧
    (∀ i : Int, (∃ e ∈ l, e.event_id = i ∧ endTimeGeq parse now e = true) →
      ∃ e2 ∈ reconcile parse now l, e2.event_id = i) := by
  refine ⟨rfl, ?_⟩
  intro i ⟨e, he, hid, hgeq⟩
  have hmem : e ∈ l.filter (fun event => endTimeGeq parse now event) :=
    List.mem_filter.2 ⟨he, hgeq⟩
  rw [reconcile, removeDuplicateEvents_eq]
  rcases dedupeFrom_retains hmem (List.not_mem_nil _) with ⟨e2, he2, heq⟩
  exact ⟨e2, he2, heq.trans hid⟩

/-- C3 witness: on `[evPast1, evFut1]` at `now = 50`, identifier 1 has a
non-expired occurrence (`evFut1`) even though its first occurrence
(`evPast1`) is expired, and a record with identifier 1 is retained. -/
theorem reconcile_filter_then_dedupe_witness :
    ∃ e2 ∈ reconcile parse0 50 [evPast1, evFut1], e2.event_id = 1 := by
  refine (reconcile_filter_then_dedupe parse0 50 [evPast1, evFut1]).2 1 ?_
  exact ⟨evFut1, by simp, by rfl, by rfl⟩

/-- C5: the reconciliation preserves relative input order: for two
records both in the output, if one first occurs before the other in the
input, it precedes it in the output. -/
theorem reconcile_preserves_order (parse : String → Option Int) (now : Int)
    (l : List EventData) (a b : EventData)
    (ha : a ∈ reconcile parse now l) (hb : b ∈ reconcile parse now l)
    (hlt : l.indexOf a < l.indexOf b) :
    (reconcile parse now l).indexOf a < (reconcile parse now l).indexOf b := by
  have ha' := ha
  have hb' := hb
  rw [reconcile, removeDuplicateEvents_eq] at ha' hb' ⊢
  have haf : a ∈ l.filter (fun event => endTimeGeq parse now event) :=
    (dedupeFrom_sublist _ _).mem ha'
  have hbf : b ∈ l.filter (fun event => endTimeGeq parse now event) :=
    (dedupeFrom_sublist _ _).mem hb'
  have hflt := filter_indexOf_lt (fun event => endTimeGeq parse now event) haf hbf hlt
  exact dedupeFrom_indexOf_lt ha' hb' hflt

/-- C5 witness: on `[evA, evB]` at `now = 50`, both records are in the
output, `evA` first occurs before `evB` in the input, and `evA` precedes
`evB` in the output. -/
theorem reconcile_preserves_order_witness :
    (reconcile parse0 50 [evA, evB]).indexOf evA
      < (reconcile parse0 50 [evA, evB]).indexOf evB := by
  refine reconcile_preserves_order parse0 50 [evA, evB] evA evB ?_ ?_ (by decide)
  · rw [show reconcile parse0 50 [evA, evB] = [evA, evB] from rfl]
    simp
  · rw [show reconcile parse0 50 [evA, evB] = [evA, evB] from rfl]
    simp

/-- C7 counterexample: a fetch cycle whose payload is not an array does
not empty the displayed event list: starting from the nonempty state
`[evA]`, handling a non-array payload leaves `[evA]` displayed, which is
not the empty list. -/
theorem fetch_nonarray_counterexample :
    fetchEventData parse0 50 FetchResponse.okNonArray [evA] = [evA] ∧
    ([evA] : List EventData) ≠ [] := by
  exact ⟨rfl, by simp⟩

/-- C7 amended: handling a non-array payload performs no state update:
the displayed event list equals the list held before the fetch, and in
particular it is empty only when it was already empty before the
fetch. -/
theorem fetch_nonarray_leaves_state (parse : String → Option Int) (now : Int)
    (prevEvents : List EventData) :
    fetchEventData parse now FetchResponse.okNonArray prevEvents = prevEvents ∧
    (fetchEventData parse now FetchResponse.okNonArray prevEvents = []
      ↔ prevEvents = []) := by
  exact ⟨rfl, Iff.rfl⟩

/-- C8: on a failed deletion request (server failure with or without a
structured message, or a thrown network error), the locally held event
list is left unchanged. -/
theorem delete_failure_leaves_state (eventId : Int) (response : DeleteResponse)
    (prevEvents : List EventData) (h : response ≠ DeleteResponse.ok) :
    deleteEvent eventId response prevEvents = prevEvents := by
  cases response with
  | ok => exact absurd rfl h
  | errorWithMessage msg => rfl
  | errorNoMessage => rfl
  | networkFailed => rfl

/-- C8 witness: a deletion of identifier 1 whose request fails with a
server message leaves the concrete state `[evA, evB]` unchanged. -/
theorem delete_failure_leaves_state_witness :
    deleteEvent 1 (DeleteResponse.errorWithMessage "Failed to delete the event.")
      [evA, evB] = [evA, evB] := by
  exact delete_failure_leaves_state 1
    (DeleteResponse.errorWithMessage "Failed to delete the event.")
    [evA, evB] (by simp)

/-- C9: on a successful deletion of an identifier, the new local list is
the old list with every record bearing that identifier removed: no
output record bears the identifier, the output is a subsequence of the
old list (records unchanged and in their old relative order), and every
record with a different identifier keeps its multiplicity. -/
theorem delete_success_removes_id (eventId : Int) (prevEvents : List EventData) :
    (deleteEvent eventId DeleteResponse.ok prevEvents).Sublist prevEvents ∧
    (∀ e ∈ deleteEvent eventId DeleteResponse.ok prevEvents, e.event_id ≠ eventId) ∧
    (∀ e : EventData, e.event_id ≠ eventId →
      (deleteEvent eventId DeleteResponse.ok prevEvents).count e
        = prevEvents.count e) := by
  refine ⟨List.filter_sublist _, ?_, ?_⟩
  · intro e he
    have h := (List.mem_filter.1 he).2
    simpa using h
  · intro e hne
    exact List.count_filter (by simpa using hne)

/-- C9 witness: deleting identifier 1 from `[evA, evB]` on success keeps
`evB` (identifier 2) with its multiplicity, and no kept record bears
identifier 1. -/
theorem delete_success_removes_id_witness :
    (deleteEvent 1 DeleteResponse.ok [evA, evB]).count evB = [evA, evB].count evB ∧
    (∀ e ∈ deleteEvent 1 DeleteResponse.ok [evA, evB], e.event_id ≠ 1) := by
  constructor
  · exact (delete_success_removes_id 1 [evA, evB]).2.2 evB (by decide)
  · exact (delete_success_removes_id 1 [evA, evB]).2.1

end Insync
